import Mathlib

/-!
Verification development for the nr-scope repository (src/predictor.py).

Python strings are embedded as `List Char`; Python floats as `ℚ` (the odds
values that appear in the spec are exactly representable, and the program's
arithmetic is ordinary field arithmetic); fallible computations return
`Option`/`Except`.  Python's `float()` conversion is modelled on its ASCII
decimal fragment (optional sign, digits, at most one decimal point) — the
inputs relevant to the specification never use exponents, underscores,
infinities or non-ASCII digits, and on every other input the model, like
CPython, yields no value.
-/

namespace NrScope

/-!
### Computable rational arithmetic

The standard `ℚ` operations of the library are `@[irreducible]`, which blocks
evaluation of concrete instances by `decide`/`rfl`.  The embedding therefore
uses the following definitionally transparent equivalents, each proved equal
to the standard operation, so that theorems can be stated with ordinary
`+ * / ⁻¹` and concrete runs still evaluate.
-/

/-- Transparent rational addition; equal to `+` by `qadd_eq`. -/
def qadd (a b : ℚ) : ℚ := mkRat (a.num * b.den + b.num * a.den) (a.den * b.den)

/-- Transparent rational multiplication; equal to `*` by `qmul_eq`. -/
def qmul (a b : ℚ) : ℚ := mkRat (a.num * b.num) (a.den * b.den)

/-- Transparent rational inverse; equal to `⁻¹` by `qinv_eq`. -/
def qinv (a : ℚ) : ℚ := Rat.divInt a.den a.num

/-- Transparent rational division; equal to `/` by `qdiv_eq`. -/
def qdiv (a b : ℚ) : ℚ := qmul a (qinv b)

/-- Transparent rational subtraction; equal to `-` by `qsub_eq`. -/
def qsub (a b : ℚ) : ℚ := qadd a (-b)

/-- Transparent list sum; equal to `List.sum` by `qsum_eq`. -/
def qsum (l : List ℚ) : ℚ := l.foldr qadd 0

/-- Transparent binary maximum; equal to `max` by `qmax_eq`. -/
def qmax (a b : ℚ) : ℚ := if a ≤ b then b else a

/-- Transparent binary minimum; equal to `min` by `qmin_eq`. -/
def qmin (a b : ℚ) : ℚ := if b ≤ a then b else a

/-- Transparent floor; equal to `⌊·⌋` by `qfloor_eq`. -/
def qfloor (q : ℚ) : ℤ := q.num / q.den

theorem qadd_eq (a b : ℚ) : qadd a b = a + b := (Rat.add_def' a b).symm

theorem qmul_eq (a b : ℚ) : qmul a b = a * b := by
  rw [qmul, Rat.mul_def, Rat.normalize_eq_mkRat]

theorem qinv_eq (a : ℚ) : qinv a = a⁻¹ := (Rat.inv_def a).symm

theorem qdiv_eq (a b : ℚ) : qdiv a b = a / b := by
  rw [qdiv, qmul_eq, qinv_eq, Rat.div_def]; rfl

theorem qsub_eq (a b : ℚ) : qsub a b = a - b := by
  rw [qsub, qadd_eq, sub_eq_add_neg]

theorem qsum_eq (l : List ℚ) : qsum l = l.sum := by
  induction l with
  | nil => rfl
  | cons x xs ih => simp [qsum, List.foldr, qadd_eq, List.sum_cons, ← ih, qsum]

theorem qmax_eq (a b : ℚ) : qmax a b = max a b := (max_def a b).symm

theorem qmin_eq (a b : ℚ) : qmin a b = min a b := by
  rw [qmin, min_def]
  rcases le_total a b with h | h
  · rcases eq_or_lt_of_le h with rfl | hlt
    · simp
    · rw [if_pos h, if_neg (not_le.mpr hlt)]
  · rw [if_pos h]
    rcases eq_or_lt_of_le h with rfl | hlt
    · simp
    · rw [if_neg (not_le.mpr hlt)]

theorem qfloor_eq (q : ℚ) : qfloor q = ⌊q⌋ := (Rat.floor_def).symm

/-- A Python string, embedded as its list of characters. -/
abbrev PyStr := List Char

/-- Python `str.strip()` whitespace test. -/
def isPySpace (c : Char) : Bool := c.isWhitespace

/-- Python `str.lstrip()`. -/
def lstrip (s : PyStr) : PyStr := s.dropWhile isPySpace

/-- Python `str.rstrip()`, by structural recursion. -/
def rstrip : PyStr → PyStr
  | [] => []
  | c :: s =>
    match rstrip s with
    | [] => if isPySpace c then [] else [c]
    | t => c :: t

/-- Python `str.strip()`. -/
def pstrip (s : PyStr) : PyStr := rstrip (lstrip s)

/-- Python `text.replace(ch, "")` for a single character: drop every occurrence. -/
def premove (ch : Char) (s : PyStr) : PyStr := s.filter (· ≠ ch)

/-- Python `text.replace(a, b)` for single characters. -/
def preplace (a b : Char) (s : PyStr) : PyStr :=
  s.map (fun c => if c = a then b else c)

/-- Python `text.split(sep)` for a single-character separator: splits at every
occurrence, keeping empty segments (`"a--b".split("-") = ["a","","b"]`). -/
def splitOnChar (sep : Char) : PyStr → List PyStr
  | [] => [[]]
  | c :: s =>
    if c = sep then [] :: splitOnChar sep s
    else
      match splitOnChar sep s with
      | [] => [[c]]
      | h :: t => (c :: h) :: t

/-- ASCII digit test. -/
def isAsciiDigit (c : Char) : Bool := '0' ≤ c && c ≤ '9'

/-- Numeric value of a string of ASCII digits (Python `int` on digit strings). -/
def digitsToNat (s : PyStr) : ℕ :=
  s.foldl (fun acc c => 10 * acc + (c.toNat - '0'.toNat)) 0

/-- Unsigned decimal fragment of Python `float()`: all-digit text, or digit
text with exactly one decimal point and at least one digit overall. -/
def pyFloatCore (t : PyStr) : Option ℚ :=
  match splitOnChar '.' t with
  | [w] =>
    if w ≠ [] ∧ w.all isAsciiDigit then some (digitsToNat w) else none
  | [w, f] =>
    if (w ++ f) ≠ [] ∧ (w ++ f).all isAsciiDigit then
      some (qadd (digitsToNat w : ℚ) (qdiv (digitsToNat f : ℚ) ((10 ^ f.length : ℕ) : ℚ)))
    else none
  | _ => none

/-- Python `float(text)` on its ASCII decimal fragment: strips whitespace,
accepts an optional single leading sign, then an unsigned decimal. -/
def pyFloat (s : PyStr) : Option ℚ :=
  match pstrip s with
  | [] => none
  | c :: rest =>
    if c = '+' then pyFloatCore rest
    else if c = '-' then (pyFloatCore rest).map (fun q => -q)
    else pyFloatCore (c :: rest)

/-- `pandas.to_numeric(x, errors="coerce")` on a string cell (NaN as `none`). -/
def pdToNumeric (s : PyStr) : Option ℚ := pyFloat s

/-- Embedding of `_parse_odds_value` (src/predictor.py:34-56), for string
cells.  (`None` cells never reach the core paths verified here.) -/
def parseOddsValue (s : PyStr) : Option ℚ :=
  let text := pstrip s
  if text = [] ∨ text = ['-'] ∨ text = ['-', '-'] then none
  else
    let text := premove ',' text
    let text := preplace '〜' '-' text
    if '-' ∈ text then
      let parts := ((splitOnChar '-' text).map pstrip).filter (· ≠ [])
      let values := parts.filterMap pyFloat
      if values = [] then none
      else some (qdiv (qsum values) (values.length : ℚ))
    else pyFloat text

/-- Embedding of `_combo_numbers` (src/predictor.py:93-97). -/
def comboNumbers (s : PyStr) : List PyStr :=
  let text := pstrip s
  if text = [] then []
  else ((splitOnChar '-' text).map pstrip).filter (· ≠ [])

/-- Embedding of `_synthetic_odds` (src/predictor.py:100-105).  The guard
`odd and odd > 0` keeps exactly the strictly positive entries. -/
def syntheticOdds (oddsList : List ℚ) : Option ℚ :=
  let probs := (oddsList.filter (fun o => 0 < o)).map (fun o => qdiv 1 o)
  let total := qsum probs
  if total ≤ 0 then none else some (qdiv 1 total)

/-- Embedding of `_horse_sort_key` (src/predictor.py:108-109). -/
def horseSortKey (s : PyStr) : ℕ :=
  if s ≠ [] ∧ s.all isAsciiDigit then digitsToNat s else 9999

/-- Embedding of `_pair_key` (src/predictor.py:208-209). -/
def pairKey (a b : PyStr) : PyStr × PyStr :=
  if horseSortKey a ≤ horseSortKey b then (a, b) else (b, a)

/-- One half, in transparent form. -/
def qhalf : ℚ := mkRat 1 2

theorem qhalf_eq : qhalf = 1 / 2 := by
  rw [qhalf, Rat.mkRat_eq_divInt, Rat.divInt_eq_div]; norm_num

/-- Round-half-to-even on an exact rational, modelling Python `round` on the
integer scale. -/
def roundHalfEven (x : ℚ) : ℤ :=
  let f := qfloor x
  let r := qsub x (f : ℚ)
  if r < qhalf then f
  else if qhalf < r then f + 1
  else if f % 2 = 0 then f else f + 1

/-- Python `round(x, n)` on an exact rational (round-half-to-even). -/
def pyRound (n : ℕ) (x : ℚ) : ℚ :=
  qdiv ((roundHalfEven (qmul x ((10 ^ n : ℕ) : ℚ)) : ℤ) : ℚ) (((10 ^ n : ℕ) : ℚ))

/-!
### Input data model

A loaded CSV is a list of rows; the Boolean fields record the outcome of the
program's `{"馬番", "馬名"}.issubset(frame.columns)`-style checks (the only
facts about the column set that the program consults).
-/

/-- A row of a horse-keyed table (win.csv / place.csv). -/
structure HorseRow where
  umaban : PyStr
  umamei : PyStr
  odds : PyStr
deriving DecidableEq

/-- A row of a combination-keyed table (quinella / exacta / trio / trifecta). -/
structure ComboRow where
  kumiawase : PyStr
  odds : PyStr
deriving DecidableEq

/-- A horse-keyed frame: the two column checks the program performs, plus rows. -/
structure HFrame where
  hasNumName : Bool
  hasNumOdds : Bool
  rows : List HorseRow
deriving DecidableEq

/-- A combination-keyed frame: the `{"組み合わせ", "オッズ"}` check plus rows. -/
structure CFrame where
  hasComboOdds : Bool
  rows : List ComboRow
deriving DecidableEq

/-- A row of the horse master (`_build_horse_master` output). -/
structure MasterRow where
  umaban : PyStr
  umamei : PyStr
  tanshoOdds : Option ℚ
deriving DecidableEq

/-- Association-list lookup (first match). -/
def alookup {α β : Type} [DecidableEq α] : List (α × β) → α → Option β
  | [], _ => none
  | (k, v) :: rest, key => if k = key then some v else alookup rest key

/-- Python `dict` lookup for a dict built by repeated assignment in list
order: the last write wins. -/
def lookupLast {α β : Type} [DecidableEq α] (m : List (α × β)) (k : α) : Option β :=
  alookup m.reverse k

/-- `tansho_map.get(horse_no)` (src/predictor.py:125): a missing key and a
stored `None` both yield `None`. -/
def dictGetJoin (m : List (PyStr × Option ℚ)) (k : PyStr) : Option ℚ :=
  (lookupLast m k).join

/-- The `tansho_map` built in `predict_from_csv_dir` (src/predictor.py:291-296). -/
def tanshoMapOf (tansho : Option HFrame) : List (PyStr × Option ℚ) :=
  match tansho with
  | none => []
  | some f =>
    if f.rows ≠ [] ∧ f.hasNumOdds then
      f.rows.filterMap (fun r =>
        let h := pstrip r.umaban
        if h = [] then none else some (h, parseOddsValue r.odds))
    else []

/-- The row list built by the loop of `_build_horse_master`
(src/predictor.py:116-127): skip empty or excluded horse numbers. -/
def processedRows (rows : List HorseRow) (excl : List PyStr)
    (tmap : List (PyStr × Option ℚ)) : List MasterRow :=
  rows.filterMap (fun r =>
    let h := pstrip r.umaban
    if h = [] ∨ h ∈ excl then none
    else some ⟨h, pstrip r.umamei, dictGetJoin tmap h⟩)

/-- `drop_duplicates(subset=["馬番"], keep="first")` (src/predictor.py:129). -/
def dedupKeepFirst (seen : List PyStr) : List MasterRow → List MasterRow
  | [] => []
  | r :: rest =>
    if r.umaban ∈ seen then dedupKeepFirst seen rest
    else r :: dedupKeepFirst (r.umaban :: seen) rest

/-- The sort key `馬番_num = pd.to_numeric(馬番, errors="coerce")`
(src/predictor.py:132); `none` is NaN. -/
def masterKey (r : MasterRow) : Option ℚ := pdToNumeric r.umaban

/-- Ordering used by `sort_values(by=["馬番_num"])` with the default
`na_position="last"`: NaN (`none`) sorts after every number. -/
def keyLe (a b : Option ℚ) : Prop :=
  match b with
  | none => True
  | some qb =>
    match a with
    | none => False
    | some qa => qa ≤ qb

instance : DecidableRel keyLe := fun a b =>
  match b with
  | none => isTrue trivial
  | some qb =>
    match a with
    | none => isFalse (fun h => h)
    | some qa => inferInstanceAs (Decidable (qa ≤ qb))

theorem keyLe_total (a b : Option ℚ) : keyLe a b ∨ keyLe b a := by
  match a, b with
  | _, none => exact Or.inl trivial
  | none, some _ => exact Or.inr trivial
  | some a, some b => exact le_total a b

theorem keyLe_trans {a b c : Option ℚ} (h₁ : keyLe a b) (h₂ : keyLe b c) : keyLe a c := by
  match a, b, c with
  | _, _, none => exact trivial
  | _, none, some _ => exact absurd h₂ (fun h => h)
  | none, some _, some _ => exact absurd h₁ (fun h => h)
  | some a, some b, some c => exact le_trans h₁ h₂

/-- Row ordering of the master sort. -/
def mLe (x y : MasterRow) : Prop := keyLe (masterKey x) (masterKey y)

instance : DecidableRel mLe := fun x y =>
  inferInstanceAs (Decidable (keyLe (masterKey x) (masterKey y)))

instance : IsTotal MasterRow mLe := ⟨fun _x _y => keyLe_total _ _⟩

instance : IsTrans MasterRow mLe := ⟨fun _ _ _ => keyLe_trans⟩

/-- Error message of the column check (src/predictor.py:114). -/
def missingColsMsg : String := "馬番/馬名の列を含むCSV（win.csv または place.csv）が必要です。"

/-- Error message of the empty-master check (src/predictor.py:131). -/
def noValidHorseMsg : String := "有効な馬データがありません（消し馬設定を確認してください）。"

/-- Embedding of `_build_horse_master` (src/predictor.py:112-134).
`hasCols` is the outcome of `{"馬番","馬名"}.issubset(columns)`.  The final
`sort_values` is modelled as a stable sort on `馬番_num` with NaN last
(pandas keeps ties in source order on race-sized inputs, where its
introsort runs its stable insertion-sort path). -/
def buildHorseMaster (hasCols : Bool) (rows : List HorseRow) (excl : List PyStr)
    (tmap : List (PyStr × Option ℚ)) : Except String (List MasterRow) :=
  if hasCols = false then .error missingColsMsg
  else
    let deduped := dedupKeepFirst [] (processedRows rows excl tmap)
    if deduped = [] then .error noValidHorseMsg
    else .ok (deduped.insertionSort mLe)

/-- The two matching modes of `_collect_horse_flow_odds`. -/
inductive FlowMode
  | contains
  | position (pos : ℕ)
deriving DecidableEq

/-- The `targets` list of one loop step of `_collect_horse_flow_odds`
(src/predictor.py:195-200). -/
def flowTargets (combo : List PyStr) (mode : FlowMode) (horses : List PyStr) : List PyStr :=
  match mode with
  | .contains => combo.filter (· ∈ horses)
  | .position p =>
    match combo.get? p with
    | some t => if t ∈ horses then [t] else []
    | none => []

/-- Embedding of `_collect_horse_flow_odds` (src/predictor.py:176-205), as the
function sending each horse number to its entry of the returned mapping. -/
def collectFlow (frame : Option CFrame) (horses : List PyStr) (excl : List PyStr)
    (mode : FlowMode) (h : PyStr) : Option ℚ :=
  if h ∈ horses then
    match frame with
    | none => none
    | some f =>
      if f.rows = [] ∨ f.hasComboOdds = false then none
      else
        syntheticOdds (f.rows.flatMap (fun r =>
          let combo := comboNumbers r.kumiawase
          if combo = [] ∨ combo.any (fun t => t ∈ excl) then []
          else
            match parseOddsValue r.odds with
            | none => []
            | some o =>
              if o ≤ 0 then []
              else ((flowTargets combo mode horses).filter (· = h)).map (fun _ => o)))
  else none

/-- The valid directional entries of a pair-style frame, in row order: rows
whose combination has exactly two tokens, touches no excluded horse, and has
positive parsed odds (src/predictor.py:229-253, shared row filter). -/
def validPairEntries (f : Option CFrame) (excl : List PyStr) :
    List ((PyStr × PyStr) × ℚ) :=
  match f with
  | none => []
  | some fr =>
    if fr.rows = [] ∨ fr.hasComboOdds = false then []
    else
      fr.rows.filterMap (fun r =>
        match comboNumbers r.kumiawase with
        | [a, b] =>
          if a ∈ excl ∨ b ∈ excl then none
          else
            match parseOddsValue r.odds with
            | none => none
            | some o => if o ≤ 0 then none else some ((a, b), o)
        | _ => none)

/-- The `umaren_map` of `_build_pair_compare` (src/predictor.py:229-240):
keyed by `_pair_key`, last write wins (looked up with `lookupLast`). -/
def umarenMapOf (f : Option CFrame) (excl : List PyStr) :
    List ((PyStr × PyStr) × ℚ) :=
  (validPairEntries f excl).map (fun e => (pairKey e.1.1 e.1.2, e.2))

/-- The `umatan_dir_map` of `_build_pair_compare` (src/predictor.py:242-253):
keyed by the ordered pair, last write wins. -/
def umatanMapOf (f : Option CFrame) (excl : List PyStr) :
    List ((PyStr × PyStr) × ℚ) :=
  validPairEntries f excl

/-- Python's tuple comparison on `(_horse_sort_key(a), _horse_sort_key(b))`,
the sort key of src/predictor.py:260. -/
def pairLe (x y : PyStr × PyStr) : Prop :=
  horseSortKey x.1 < horseSortKey y.1 ∨
    (horseSortKey x.1 = horseSortKey y.1 ∧ horseSortKey x.2 ≤ horseSortKey y.2)

instance : DecidableRel pairLe := fun _x _y =>
  inferInstanceAs (Decidable (_ ∨ _))

instance : IsTotal (PyStr × PyStr) pairLe := by
  constructor
  intro x y
  rcases lt_trichotomy (horseSortKey x.1) (horseSortKey y.1) with h | h | h
  · exact Or.inl (Or.inl h)
  · rcases le_total (horseSortKey x.2) (horseSortKey y.2) with h2 | h2
    · exact Or.inl (Or.inr ⟨h, h2⟩)
    · exact Or.inr (Or.inr ⟨h.symm, h2⟩)
  · exact Or.inr (Or.inl h)

instance : IsTrans (PyStr × PyStr) pairLe := by
  constructor
  intro x y z hxy hyz
  rcases hxy with h1 | ⟨e1, l1⟩
  · rcases hyz with h2 | ⟨e2, _⟩
    · exact Or.inl (lt_trans h1 h2)
    · exact Or.inl (e2 ▸ h1)
  · rcases hyz with h2 | ⟨e2, l2⟩
    · exact Or.inl (e1 ▸ h2)
    · exact Or.inr ⟨e1.trans e2, le_trans l1 l2⟩

/-- The sorted list of pairs `all_pairs` of `_build_pair_compare`
(src/predictor.py:255-260): the union of the pair-map keys and the
canonicalized directional-map keys, deduplicated (a Python `set`), sorted by
`(_horse_sort_key(a), _horse_sort_key(b))`. -/
def allPairsOf (umaren umatan : Option CFrame) (excl : List PyStr) :
    List (PyStr × PyStr) :=
  ((((umarenMapOf umaren excl).map Prod.fst) ++
      ((umatanMapOf umatan excl).map (fun e => pairKey e.1.1 e.1.2))).dedup).insertionSort pairLe

/-- One row of `_build_pair_compare`'s loop (src/predictor.py:260-274), before
dictionary rendering: the canonical pair and the two odds values. -/
structure PairCore where
  a : PyStr
  b : PyStr
  umarenOdds : Option ℚ
  synthOdds : Option ℚ
deriving DecidableEq

/-- The per-pair computation of `_build_pair_compare` (src/predictor.py:260-264). -/
def buildPairCore (umaren umatan : Option CFrame) (excl : List PyStr) :
    List PairCore :=
  let umarenMap := umarenMapOf umaren excl
  let umatanMap := umatanMapOf umatan excl
  (allPairsOf umaren umatan excl).map (fun p =>
    let ab := lookupLast umatanMap (p.1, p.2)
    let ba := lookupLast umatanMap (p.2, p.1)
    ⟨p.1, p.2, lookupLast umarenMap p, syntheticOdds ([ab, ba].filterMap id)⟩)

/-- The rendering `int(a) if a.isdigit() else a` of src/predictor.py:267. -/
inductive HNum
  | i (n : ℕ)
  | s (t : PyStr)
deriving DecidableEq

/-- Horse-number rendering of the pair table (src/predictor.py:267-269). -/
def renderHNum (x : PyStr) : HNum :=
  if x ≠ [] ∧ x.all isAsciiDigit then .i (digitsToNat x) else .s x

/-- Row maximum over the present values (pandas `max(axis=1)`, `skipna`). -/
def foldMax (x : ℚ) (xs : List ℚ) : ℚ := xs.foldl qmax x

/-- Row minimum over the present values (pandas `min(axis=1)`, `skipna`). -/
def foldMin (x : ℚ) (xs : List ℚ) : ℚ := xs.foldl qmin x

/-- The per-row spread of `_add_spread_column` (src/predictor.py:212-220):
`(max − min).round(4)` over the present numeric values, NaN (`none`) when no
value is present. -/
def spreadOf (cols : List (Option ℚ)) : Option ℚ :=
  match cols.filterMap id with
  | [] => none
  | x :: xs => some (pyRound 4 (qsub (foldMax x xs) (foldMin x xs)))

/-- A row of the rendered pair table (src/predictor.py:265-279). -/
structure PairRow where
  aNum : HNum
  aName : PyStr
  bNum : HNum
  bName : PyStr
  umarenOdds : Option ℚ
  synthOdds : Option ℚ
  spread : Option ℚ
deriving DecidableEq

/-- Embedding of `_build_pair_compare` (src/predictor.py:223-279): rendered
rows with both odds rounded to 4 decimals, plus the spread column over the
two odds columns. -/
def buildPairCompare (umaren umatan : Option CFrame) (nameMap : List (PyStr × PyStr))
    (excl : List PyStr) : List PairRow :=
  (buildPairCore umaren umatan excl).map (fun c =>
    let ur := c.umarenOdds.map (pyRound 4)
    let sy := c.synthOdds.map (pyRound 4)
    ⟨renderHNum c.a, (lookupLast nameMap c.a).getD [],
      renderHNum c.b, (lookupLast nameMap c.b).getD [],
      ur, sy, spreadOf [ur, sy]⟩)

/-- A row of a horse-keyed comparison table.  `umaban` is the
`pd.to_numeric(..., errors="coerce")` value of the horse number (the final
`astype("Int64")` of the source only changes the dtype of the stored
values). -/
structure CmpRow where
  umaban : Option ℚ
  umamei : PyStr
  cols : List (Option ℚ)
  spread : Option ℚ
deriving DecidableEq

/-- Builds a comparison table from the master and its odds-column functions,
appending the spread column (src/predictor.py:331-374). -/
def mkCmpRows (master : List MasterRow) (colFns : List (MasterRow → Option ℚ)) :
    List CmpRow :=
  master.map (fun m =>
    let cs := colFns.map (fun f => f m)
    ⟨pdToNumeric m.umaban, m.umamei, cs, spreadOf cs⟩)

/-- The `fukusho_map` of `predict_from_csv_dir` (src/predictor.py:323-329). -/
def fukushoMapOf (place : Option HFrame) (excl : List PyStr) :
    List (PyStr × Option ℚ) :=
  match place with
  | none => []
  | some f =>
    if f.rows ≠ [] ∧ f.hasNumOdds then
      f.rows.filterMap (fun r =>
        let h := pstrip r.umaban
        if h = [] ∨ h ∈ excl then none else some (h, parseOddsValue r.odds))
    else []

/-- The input of `predict_from_csv_dir`, after CSV loading: the optional
frame of each bet type the computation reads, plus the raw exclusion list.
(CSV discovery and the `race_data.json` fallback are external I/O
collaborators, excluded from the core by the spec.) -/
structure PInput where
  tansho : Option HFrame
  fukusho : Option HFrame
  umaren : Option CFrame
  wide : Option CFrame
  umatan : Option CFrame
  sanrenpuku : Option CFrame
  sanrentan : Option CFrame
  excluded : List PyStr
deriving DecidableEq

/-- The output tables of `predict_from_csv_dir`, together with the horse
master they were derived from. -/
structure POutput where
  master : List MasterRow
  allMarket : List CmpRow
  firstPlace : List CmpRow
  flowCmp : List CmpRow
  pairCmp : List PairRow
deriving DecidableEq

/-- `excluded = {str(x).strip() for x in excluded_horses if str(x).strip()}`
(src/predictor.py:285). -/
def exclSet (inp : PInput) : List PyStr :=
  ((inp.excluded.map pstrip).filter (· ≠ [])).dedup

/-- `frame is not None and not frame.empty and {"馬番","馬名"} ⊆ columns`. -/
def hframeOkNumName : Option HFrame → Bool
  | some f => !f.rows.isEmpty && f.hasNumName
  | none => false

/-- Base-frame selection of src/predictor.py:298-302. -/
def baseFrameOf (inp : PInput) : Option HFrame :=
  if hframeOkNumName inp.tansho then inp.tansho
  else if hframeOkNumName inp.fukusho then inp.fukusho
  else none

/-- `excluded_num = {int(x) for x in excluded if x.isdigit()}`
(src/predictor.py:383). -/
def excludedNums (excl : List PyStr) : List ℕ :=
  (excl.filterMap (fun s =>
    if s ≠ [] ∧ s.all isAsciiDigit then some (digitsToNat s) else none)).dedup

/-- `series.isin(excluded_num)` on the nullable-integer horse-number column:
a null is in no set. -/
def optInNums (v : Option ℚ) (en : List ℕ) : Bool :=
  match v with
  | some q => en.any (fun n => decide ((n : ℚ) = q))
  | none => false

/-- `isin(excluded_num)` on a rendered pair member: a string is never equal
to a Python int. -/
def hnumInNums (x : HNum) (en : List ℕ) : Bool :=
  match x with
  | .i n => n ∈ en
  | .s _ => false

/-- The defensive final exclusion filter on a horse-keyed table
(src/predictor.py:385-388). -/
def filterCmpExcl (en : List ℕ) (rows : List CmpRow) : List CmpRow :=
  if en = [] then rows else rows.filter (fun r => !(optInNums r.umaban en))

/-- The defensive final exclusion filter on the pair table
(src/predictor.py:389-392). -/
def filterPairExcl (en : List ℕ) (rows : List PairRow) : List PairRow :=
  if en = [] then rows
  else rows.filter (fun r => !(hnumInNums r.aNum en) && !(hnumInNums r.bNum en))

/-- Error message of the missing-base-frame branch (src/predictor.py:307),
without the interpolated directory path. -/
def missingBaseMsg : String := "win.csv/place.csv（または単勝.csv/複勝.csv）に馬番・馬名が必要です。"

/-- The four output tables of `predict_from_csv_dir` (src/predictor.py:
314-392), built from the horse master. -/
def mkTables (inp : PInput) (master : List MasterRow) : POutput :=
  let excl := exclSet inp
  let horses := master.map (·.umaban)
  let nameMap := master.map (fun m => (m.umaban, m.umamei))
  let fmap := fukushoMapOf inp.fukusho excl
  let allCols : List (MasterRow → Option ℚ) :=
        [(·.tanshoOdds),
          (fun m => dictGetJoin fmap m.umaban),
          (fun m => collectFlow inp.umaren horses excl .contains m.umaban),
          (fun m => collectFlow inp.wide horses excl .contains m.umaban),
          (fun m => collectFlow inp.umatan horses excl (.position 0) m.umaban),
          (fun m => collectFlow inp.umatan horses excl (.position 1) m.umaban),
          (fun m => collectFlow inp.sanrenpuku horses excl .contains m.umaban),
          (fun m => collectFlow inp.sanrentan horses excl (.position 0) m.umaban),
          (fun m => collectFlow inp.sanrentan horses excl (.position 1) m.umaban),
          (fun m => collectFlow inp.sanrentan horses excl (.position 2) m.umaban)]
  let firstCols : List (MasterRow → Option ℚ) :=
    [(·.tanshoOdds),
      (fun m => collectFlow inp.umatan horses excl (.position 0) m.umaban),
      (fun m => collectFlow inp.sanrentan horses excl (.position 0) m.umaban)]
  let flowCols : List (MasterRow → Option ℚ) :=
    [(fun m => dictGetJoin fmap m.umaban),
      (fun m => collectFlow inp.sanrenpuku horses excl .contains m.umaban)]
  let en := excludedNums excl
  { master := master
    allMarket := filterCmpExcl en (mkCmpRows master allCols)
    firstPlace := filterCmpExcl en (mkCmpRows master firstCols)
    flowCmp := filterCmpExcl en (mkCmpRows master flowCols)
    pairCmp := filterPairExcl en (buildPairCompare inp.umaren inp.umatan nameMap excl) }

/-- Embedding of `predict_from_csv_dir` (src/predictor.py:282-401) from the
loaded frames onward.  The `race_data.json` fallback (external I/O, excluded
from the core) is modelled as absent, so a missing base frame errors. -/
def predictModel (inp : PInput) : Except String POutput :=
  match baseFrameOf inp with
  | none => .error missingBaseMsg
  | some bf =>
    match buildHorseMaster bf.hasNumName bf.rows (exclSet inp) (tanshoMapOf inp.tansho) with
    | .error e => .error e
    | .ok master => .ok (mkTables inp master)

/-- Modelled from the spec: the ScoreAggregator (spec §4.6) is not present in
src/ (the spec lists it as an alternate mode); its fixed per-bet-type weight
table, "win=1.00, place=0.80, quinella=0.45... bracket-quinella=0.00", with
unlisted bet types contributing nothing. -/
def scoreWeight (betType : String) : ℚ :=
  if betType = "単勝" then 1
  else if betType = "複勝" then mkRat 4 5
  else if betType = "馬連" then mkRat 9 20
  else if betType = "枠連" then 0
  else 0

/-- Modelled from the spec: ScoreAggregator raw score of a horse from a
single-horse bet-type table (spec §4.6): "contribution = weight × (1/odds)
directly to that horse", skipped when the odds are absent or not positive. -/
def singleRawScore (betType : String) (rows : List (PyStr × Option ℚ)) (h : PyStr) : ℚ :=
  qsum (rows.filterMap (fun r =>
    if r.1 = h then
      match r.2 with
      | some o => if 0 < o then some (qmul (scoreWeight betType) (qdiv 1 o)) else none
      | none => none
    else none))

/-- Modelled from the spec: the horses a win-table-only dataset scores. -/
def scoreHorses (rows : List (PyStr × Option ℚ)) : List PyStr :=
  (rows.map Prod.fst).dedup

/-- Modelled from the spec: the maximum raw score across all horses. -/
def maxRawScore (rows : List (PyStr × Option ℚ)) : ℚ :=
  ((scoreHorses rows).map (singleRawScore "単勝" rows)).foldl qmax 0

/-- Modelled from the spec: "Normalized score = raw_score / max(raw_score
across all horses) × 100, rounded to 2 decimals; if the maximum raw score is
0, every normalized score is 0" (spec §4.6). -/
def normScore (rows : List (PyStr × Option ℚ)) (h : PyStr) : ℚ :=
  if maxRawScore rows = 0 then 0
  else pyRound 2 (qmul (qdiv (singleRawScore "単勝" rows h) (maxRawScore rows)) 100)

/-- Modelled from the spec: "Ranking order: descending normalized score, ties
broken by ascending numeric horse-number (non-numeric last)" (spec §4.6). -/
def rankLe (rows : List (PyStr × Option ℚ)) (x y : PyStr) : Prop :=
  normScore rows y < normScore rows x ∨
    (normScore rows x = normScore rows y ∧ horseSortKey x ≤ horseSortKey y)

instance (rows : List (PyStr × Option ℚ)) : DecidableRel (rankLe rows) :=
  fun _x _y => inferInstanceAs (Decidable (_ ∨ _))

/-- Modelled from the spec: ScoreAggregator on a dataset consisting of only a
win table (spec §4.6): each ranked horse with its raw and normalized score,
in ranking order. -/
def scoreAggregate (rows : List (PyStr × Option ℚ)) : List (PyStr × ℚ × ℚ) :=
  ((scoreHorses rows).insertionSort (rankLe rows)).map
    (fun h => (h, singleRawScore "単勝" rows h, normScore rows h))

/-!
### The claims
-/

/-- C1: given only a win table with horses A(odds=2.0) and B(odds=4.0), the
raw scores are 0.5 and 0.25, the normalized scores are 100.0 and 50.0, and
the ranking order is [A, B].  (ScoreAggregator is modelled from the spec; it
is absent from src/.) -/
theorem scoreAggregator_example :
    scoreAggregate [("A".data, some 2), ("B".data, some 4)] =
      [("A".data, (1/2 : ℚ), (100 : ℚ)), ("B".data, (1/4 : ℚ), (50 : ℚ))] := by
  simp only [← qdiv_eq]
  decide

/-- C5: the odds parser maps "3.5" to 3.5, "12,000.0" to 12000.0, "2.0-4.0"
to 3.0 (mean of the range endpoints), and "－" to absent; it never raises —
being a total function into `Option`, its only outcomes are a value or
absent. -/
theorem parseOdds_examples :
    parseOddsValue "3.5".data = some (7/2) ∧
    parseOddsValue "12,000.0".data = some 12000 ∧
    parseOddsValue "2.0-4.0".data = some 3 ∧
    parseOddsValue "－".data = none ∧
    (∀ s : PyStr, parseOddsValue s = none ∨ ∃ v : ℚ, parseOddsValue s = some v) := by
  refine ⟨by simp only [← qdiv_eq]; decide, by decide, by decide, by decide, ?_⟩
  intro s
  cases parseOddsValue s with
  | none => exact Or.inl rfl
  | some v => exact Or.inr ⟨v, rfl⟩

/-- C6: the synthetic-odds combine is permutation-invariant, combining a
single positive value returns it unchanged, and combining an empty list or a
list of only non-positive values is absent (a singleton non-positive list is
such a list); concretely, [2,4] in either order combines to 4/3. -/
theorem syntheticOdds_properties :
    (∀ l l' : List ℚ, l.Perm l' → syntheticOdds l = syntheticOdds l') ∧
    (∀ v : ℚ, 0 < v → syntheticOdds [v] = some v) ∧
    syntheticOdds ([] : List ℚ) = none ∧
    (∀ l : List ℚ, (∀ x ∈ l, x ≤ 0) → syntheticOdds l = none) ∧
    syntheticOdds [2, 4] = some (4/3) ∧
    syntheticOdds [4, 2] = some (4/3) := by
  refine ⟨?_, ?_, by decide, ?_, ?_, ?_⟩
  · intro l l' h
    have hq : qsum (((l.filter (fun o => 0 < o)).map (fun o => qdiv 1 o))) =
        qsum (((l'.filter (fun o => 0 < o)).map (fun o => qdiv 1 o))) := by
      rw [qsum_eq, qsum_eq]
      exact ((h.filter _).map _).sum_eq
    simp only [syntheticOdds, hq]
  · intro v hv
    have hfil : [v].filter (fun o => decide (0 < o)) = [v] := by
      simp [List.filter, hv]
    simp only [syntheticOdds, hfil, List.map, qsum, List.foldr, qadd_eq, qdiv_eq, add_zero]
    rw [if_neg (not_le.mpr (one_div_pos.mpr hv)), one_div_one_div]
  · intro l hl
    have hf : l.filter (fun o => decide (0 < o)) = [] := by
      rw [List.filter_eq_nil_iff]
      intro a ha
      simp only [decide_eq_true_eq, not_lt]
      exact hl a ha
    simp only [syntheticOdds, hf, List.map_nil, qsum, List.foldr, le_refl, if_pos]
  · simp only [← qdiv_eq]; decide
  · simp only [← qdiv_eq]; decide

/-- Witness for C6 at concrete inputs. -/
theorem syntheticOdds_properties_witness :
    syntheticOdds [2, 4] = syntheticOdds [4, 2] ∧
    syntheticOdds [3] = some 3 ∧
    syntheticOdds [-1, 0] = none :=
  ⟨syntheticOdds_properties.1 [2, 4] [4, 2] (by decide),
   syntheticOdds_properties.2.1 3 (by norm_num),
   syntheticOdds_properties.2.2.2.1 [-1, 0] (by intro x hx; fin_cases hx <;> norm_num)⟩

/-- C2: for every base table (with the required columns) and exclusion set,
if no usable horse remains after exclusion filtering, building the horse
master yields the data error (the no-valid-horse `ValueError`); and with
horses {1,2,3} and excluded={2} it yields the ordered list [1,3]. -/
theorem buildHorseMaster_empty_and_example :
    (∀ rows excl tmap, processedRows rows excl tmap = [] →
        buildHorseMaster true rows excl tmap = .error noValidHorseMsg) ∧
    (buildHorseMaster true
        [⟨"1".data, "A".data, "".data⟩, ⟨"2".data, "B".data, "".data⟩,
          ⟨"3".data, "C".data, "".data⟩]
        ["2".data] []).toOption.map (fun l => l.map (fun m => m.umaban)) =
      some [['1'], ['3']] := by
  constructor
  · intro rows excl tmap h
    simp [buildHorseMaster, h, dedupKeepFirst]
  · decide

/-- Witness for C2: excluding the only horse produces the data error. -/
theorem buildHorseMaster_empty_witness :
    buildHorseMaster true [⟨"2".data, "B".data, "".data⟩] ["2".data] [] =
      .error noValidHorseMsg :=
  buildHorseMaster_empty_and_example.1 _ _ _ (by decide)

theorem foldMax_cons (x y : ℚ) (ys : List ℚ) :
    foldMax x (y :: ys) = foldMax (qmax x y) ys := rfl

theorem foldMin_cons (x y : ℚ) (ys : List ℚ) :
    foldMin x (y :: ys) = foldMin (qmin x y) ys := rfl

theorem foldMax_mem (x : ℚ) (xs : List ℚ) : foldMax x xs ∈ x :: xs := by
  induction xs generalizing x with
  | nil => simp [foldMax]
  | cons y ys ih =>
    rw [foldMax_cons]
    rcases List.mem_cons.mp (ih (qmax x y)) with h1 | h1
    · rw [h1, qmax_eq]
      rcases max_choice x y with hc | hc <;> rw [hc] <;> simp
    · exact List.mem_cons_of_mem _ (List.mem_cons_of_mem _ h1)

theorem foldMin_mem (x : ℚ) (xs : List ℚ) : foldMin x xs ∈ x :: xs := by
  induction xs generalizing x with
  | nil => simp [foldMin]
  | cons y ys ih =>
    rw [foldMin_cons]
    rcases List.mem_cons.mp (ih (qmin x y)) with h1 | h1
    · rw [h1, qmin_eq]
      rcases min_choice x y with hc | hc <;> rw [hc] <;> simp
    · exact List.mem_cons_of_mem _ (List.mem_cons_of_mem _ h1)

theorem le_foldMax (x : ℚ) (xs : List ℚ) : ∀ y ∈ x :: xs, y ≤ foldMax x xs := by
  induction xs generalizing x with
  | nil =>
    intro y hy
    rw [List.mem_singleton] at hy
    simp [foldMax, hy]
  | cons z zs ih =>
    intro y hy
    rw [foldMax_cons]
    have hhead : qmax x z ≤ foldMax (qmax x z) zs :=
      ih (qmax x z) (qmax x z) (List.mem_cons_self _ _)
    rcases List.mem_cons.mp hy with rfl | h1
    · exact le_trans (qmax_eq y z ▸ le_max_left y z) hhead
    · rcases List.mem_cons.mp h1 with rfl | h2
      · exact le_trans (qmax_eq x y ▸ le_max_right x y) hhead
      · exact ih (qmax x z) y (List.mem_cons_of_mem _ h2)

theorem foldMin_le (x : ℚ) (xs : List ℚ) : ∀ y ∈ x :: xs, foldMin x xs ≤ y := by
  induction xs generalizing x with
  | nil =>
    intro y hy
    rw [List.mem_singleton] at hy
    simp [foldMin, hy]
  | cons z zs ih =>
    intro y hy
    rw [foldMin_cons]
    have hhead : foldMin (qmin x z) zs ≤ qmin x z :=
      ih (qmin x z) (qmin x z) (List.mem_cons_self _ _)
    rcases List.mem_cons.mp hy with rfl | h1
    · exact le_trans hhead (qmin_eq y z ▸ min_le_left y z)
    · rcases List.mem_cons.mp h1 with rfl | h2
      · exact le_trans hhead (qmin_eq x y ▸ min_le_right x y)
      · exact ih (qmin x z) y (List.mem_cons_of_mem _ h2)

/-- C7: for every comparison-table row, the spread is max minus min over the
row's present numeric values, rounded to 4 decimal places, and is absent
exactly when no numeric value is present; `[3.0, 3.0, None]` has spread 0.0,
an all-absent row has absent spread; every built table row carries
`spreadOf` of its designated odds columns. -/
theorem spread_spec :
    (∀ cols : List (Option ℚ), spreadOf cols = none ↔ cols.filterMap id = []) ∧
    (∀ (cols : List (Option ℚ)) (x : ℚ) (xs : List ℚ), cols.filterMap id = x :: xs →
        foldMax x xs ∈ x :: xs ∧ foldMin x xs ∈ x :: xs ∧
        (∀ y ∈ x :: xs, foldMin x xs ≤ y ∧ y ≤ foldMax x xs) ∧
        spreadOf cols = some (pyRound 4 (foldMax x xs - foldMin x xs))) ∧
    spreadOf [some 3, some 3, none] = some 0 ∧
    spreadOf [none, none] = none ∧
    (∀ master colFns r, r ∈ mkCmpRows master colFns → r.spread = spreadOf r.cols) ∧
    (∀ um ut nm excl r, r ∈ buildPairCompare um ut nm excl →
        r.spread = spreadOf [r.umarenOdds, r.synthOdds]) := by
  refine ⟨?_, ?_, by decide, by decide, ?_, ?_⟩
  · intro cols
    cases h : cols.filterMap id with
    | nil => simp [spreadOf, h]
    | cons x xs => simp [spreadOf, h]
  · intro cols x xs h
    refine ⟨foldMax_mem x xs, foldMin_mem x xs,
      fun y hy => ⟨foldMin_le x xs y hy, le_foldMax x xs y hy⟩, ?_⟩
    simp only [spreadOf, h, qsub_eq]
  · intro master colFns r hr
    simp only [mkCmpRows, List.mem_map] at hr
    obtain ⟨m, _, rfl⟩ := hr
    rfl
  · intro um ut nm excl r hr
    simp only [buildPairCompare, List.mem_map] at hr
    obtain ⟨c, _, rfl⟩ := hr
    rfl

/-- Witness for C7 at a concrete row with values [3, absent, 1]. -/
theorem spread_spec_witness :
    (foldMax 3 [1] ∈ [(3 : ℚ), 1] ∧ foldMin 3 [1] ∈ [(3 : ℚ), 1] ∧
      (∀ y ∈ [(3 : ℚ), 1], foldMin 3 [1] ≤ y ∧ y ≤ foldMax 3 [1]) ∧
      spreadOf [some 3, none, some 1] = some (pyRound 4 (foldMax 3 [1] - foldMin 3 [1]))) ∧
    (⟨some 1, "A".data, [], none⟩ : CmpRow).spread =
      spreadOf (⟨some 1, "A".data, [], none⟩ : CmpRow).cols :=
  ⟨spread_spec.2.1 [some 3, none, some 1] 3 [1] (by decide),
   spread_spec.2.2.2.2.1 [⟨"1".data, "A".data, none⟩] [] ⟨some 1, "A".data, [], none⟩
     (by decide)⟩

theorem keyLe_refl (a : Option ℚ) : keyLe a a := by
  cases a with
  | none => exact trivial
  | some q => exact le_refl q

/-- Filtering commutes with `orderedInsert` when all elements kept by the
filter are related (a tie class of the sort key). -/
theorem filter_orderedInsert {α : Type} (r : α → α → Prop) [DecidableRel r] (p : α → Bool)
    (a : α) (l : List α) (H : ∀ b ∈ l, p a = true → p b = true → r a b) :
    (l.orderedInsert r a).filter p =
      if p a then a :: l.filter p else l.filter p := by
  induction l with
  | nil =>
    cases hpa : p a <;> simp [List.orderedInsert, List.filter, hpa]
  | cons b t ih =>
    by_cases hr : r a b
    · rw [List.orderedInsert_of_le r t hr]
      cases hpa : p a <;> simp [List.filter, hpa]
    · have hstep : (b :: t).orderedInsert r a = b :: t.orderedInsert r a := by
        simp [List.orderedInsert, hr]
      rw [hstep]
      have ih' := ih (fun c hc => H c (List.mem_cons_of_mem _ hc))
      cases hpa : p a with
      | false =>
        rw [if_neg (by simp)]
        cases hpb : p b with
        | false => simp [List.filter, hpb, ih', hpa]
        | true => simp [List.filter, hpb, ih', hpa]
      | true =>
        have hpb : p b = false := by
          cases hpb : p b with
          | false => rfl
          | true => exact absurd (H b (List.mem_cons_self _ _) hpa hpb) hr
        rw [if_pos (by simp)]
        simp [List.filter, hpb, ih', hpa]

/-- Insertion sort is stable: it does not reorder any tie class of the key. -/
theorem filter_insertionSort {α : Type} (r : α → α → Prop) [DecidableRel r] (p : α → Bool)
    (H : ∀ a b, p a = true → p b = true → r a b) (l : List α) :
    (l.insertionSort r).filter p = l.filter p := by
  induction l with
  | nil => rfl
  | cons a t ih =>
    rw [List.insertionSort, filter_orderedInsert r p a _ (fun b _ => H a b)]
    cases hpa : p a <;> simp [List.filter, hpa, ih]

/-- C8: for every base table, the horse master is sorted ascending by the
numeric value of the horse number with non-numeric numbers (NaN keys) after
all numeric ones — the order `mLe` — is a permutation of the deduplicated
filtered source rows, and keeps every tie class of the numeric key in
original source order. -/
theorem buildHorseMaster_sorted (rows : List HorseRow) (excl : List PyStr)
    (tmap : List (PyStr × Option ℚ)) (m : List MasterRow) (k : Option ℚ)
    (hm : buildHorseMaster true rows excl tmap = .ok m) :
    m.Sorted mLe ∧
    m.Perm (dedupKeepFirst [] (processedRows rows excl tmap)) ∧
    m.filter (fun r => masterKey r = k) =
      (dedupKeepFirst [] (processedRows rows excl tmap)).filter
        (fun r => masterKey r = k) := by
  have hm' : m = (dedupKeepFirst [] (processedRows rows excl tmap)).insertionSort mLe := by
    by_cases hd : dedupKeepFirst [] (processedRows rows excl tmap) = []
    · rw [buildHorseMaster, if_neg (by simp), hd] at hm
      simp at hm
    · rw [buildHorseMaster, if_neg (by simp)] at hm
      rw [if_neg hd] at hm
      exact (Except.ok.injEq _ _).mp hm.symm |>.symm ▸ rfl
  subst hm'
  refine ⟨List.sorted_insertionSort mLe _, List.perm_insertionSort mLe _, ?_⟩
  apply filter_insertionSort
  intro a b hpa hpb
  rw [decide_eq_true_eq] at hpa hpb
  unfold mLe
  rw [hpa, hpb]
  exact keyLe_refl k

/-- Witness for C8: a concrete table with out-of-order and non-numeric horse
numbers sorts to [1, 2, 3, X]. -/
theorem buildHorseMaster_sorted_witness :
    ([⟨['1'], ['A'], none⟩, ⟨['2'], ['B'], none⟩, ⟨['3'], ['C'], none⟩,
        ⟨['X'], ['D'], none⟩] : List MasterRow).Sorted mLe ∧
    ([⟨['1'], ['A'], none⟩, ⟨['2'], ['B'], none⟩, ⟨['3'], ['C'], none⟩,
        ⟨['X'], ['D'], none⟩] : List MasterRow).Perm
      (dedupKeepFirst [] (processedRows
        [⟨"3".data, "C".data, "".data⟩, ⟨"1".data, "A".data, "".data⟩,
          ⟨"X".data, "D".data, "".data⟩, ⟨"2".data, "B".data, "".data⟩] [] [])) ∧
    ([⟨['1'], ['A'], none⟩, ⟨['2'], ['B'], none⟩, ⟨['3'], ['C'], none⟩,
        ⟨['X'], ['D'], none⟩] : List MasterRow).filter
        (fun r => masterKey r = some 2) =
      (dedupKeepFirst [] (processedRows
        [⟨"3".data, "C".data, "".data⟩, ⟨"1".data, "A".data, "".data⟩,
          ⟨"X".data, "D".data, "".data⟩, ⟨"2".data, "B".data, "".data⟩] [] [])).filter
        (fun r => masterKey r = some 2) :=
  buildHorseMaster_sorted
    [⟨"3".data, "C".data, "".data⟩, ⟨"1".data, "A".data, "".data⟩,
      ⟨"X".data, "D".data, "".data⟩, ⟨"2".data, "B".data, "".data⟩] [] []
    [⟨['1'], ['A'], none⟩, ⟨['2'], ['B'], none⟩, ⟨['3'], ['C'], none⟩, ⟨['X'], ['D'], none⟩]
    (some 2) (by rfl)

/-- C4: quinella "1-2" at 5.0 with exacta "1-2" at 8.0 and "2-1" at 12.0
yields the pair (1,2) with pair-bet odds 5.0 and synthetic directional odds
1/(1/8+1/12) = 4.8, both in the loop rows and in the rendered table; and in
general every pair row's synthetic directional odds is the
implied-probability combine of the directional entries (a,b) and (b,a) that
are present. -/
theorem pairCompare_synth :
    ((buildPairCore (some ⟨true, [⟨"1-2".data, "5.0".data⟩]⟩)
        (some ⟨true, [⟨"1-2".data, "8.0".data⟩, ⟨"2-1".data, "12.0".data⟩]⟩) []).map
      (fun r => (r.a, r.b, r.umarenOdds, r.synthOdds))
      = [(['1'], ['2'], some 5, some (24/5))]) ∧
    ((buildPairCompare (some ⟨true, [⟨"1-2".data, "5.0".data⟩]⟩)
        (some ⟨true, [⟨"1-2".data, "8.0".data⟩, ⟨"2-1".data, "12.0".data⟩]⟩) [] []).map
      (fun r => (r.aNum, r.bNum, r.umarenOdds, r.synthOdds))
      = [(HNum.i 1, HNum.i 2, some 5, some (24/5))]) ∧
    (∀ umaren umatan excl r, r ∈ buildPairCore umaren umatan excl →
      r.synthOdds = syntheticOdds
        (([lookupLast (umatanMapOf umatan excl) (r.a, r.b),
            lookupLast (umatanMapOf umatan excl) (r.b, r.a)]).filterMap id)) := by
  refine ⟨by simp only [← qdiv_eq]; decide, by simp only [← qdiv_eq]; decide, ?_⟩
  intro umaren umatan excl r hr
  simp only [buildPairCore, List.mem_map] at hr
  obtain ⟨p, _, rfl⟩ := hr
  rfl

/-- Witness for C4's general clause at a concrete exacta-only input. -/
theorem pairCompare_synth_witness :
    (⟨['1'], ['2'], none, some 8⟩ : PairCore).synthOdds = syntheticOdds
      (([lookupLast (umatanMapOf (some ⟨true, [⟨"1-2".data, "8.0".data⟩]⟩) []) (['1'], ['2']),
          lookupLast (umatanMapOf (some ⟨true, [⟨"1-2".data, "8.0".data⟩]⟩) []) (['2'], ['1'])]).filterMap id) :=
  pairCompare_synth.2.2 none (some ⟨true, [⟨"1-2".data, "8.0".data⟩]⟩) []
    ⟨['1'], ['2'], none, some 8⟩ (by decide)

/-- The canonical keys of the pair rows are exactly the sorted deduplicated
pair list. -/
theorem buildPairCore_keys (umaren umatan : Option CFrame) (excl : List PyStr) :
    (buildPairCore umaren umatan excl).map (fun r => (r.a, r.b)) =
      allPairsOf umaren umatan excl := by
  simp only [buildPairCore, List.map_map]
  have : ((fun r : PairCore => (r.a, r.b)) ∘ fun p : PyStr × PyStr =>
      (⟨p.1, p.2, lookupLast (umarenMapOf umaren excl) p,
        syntheticOdds (([lookupLast (umatanMapOf umatan excl) (p.1, p.2),
          lookupLast (umatanMapOf umatan excl) (p.2, p.1)]).filterMap id)⟩ : PairCore))
      = fun p => p := by
    funext p
    rfl
  rw [this]
  exact List.map_id' _

/-- A quinella frame whose two rows name the same two horses with distinct
string forms of equal sort key ("2" and "02"). -/
def umarenTie : CFrame := ⟨true, [⟨"2-02".data, "5.0".data⟩, ⟨"02-2".data, "7.0".data⟩]⟩

/-- C9 counterexample: with quinella rows "2-02" and "02-2", the pair table
has two rows, and they carry the same unordered pair of horse numbers
{"2", "02"} — `_pair_key` does not canonicalize pairs whose members have
equal sort keys, so the same two horses produce two rows. -/
theorem pairCompare_dup_counterexample :
    ((buildPairCore (some umarenTie) none []).map (fun r => (r.a, r.b)) =
      [(['2'], ['0', '2']), (['0', '2'], ['2'])]) ∧
    ({(['2'] : PyStr), ['0', '2']} : Finset PyStr) = {['0', '2'], ['2']} ∧
    ((['2'] : PyStr), (['0', '2'] : PyStr)) ≠ (['0', '2'], ['2']) := by
  refine ⟨by decide, ?_, by decide⟩
  rw [Finset.pair_comm]

/-- C9 amended: the canonical ordered keys of the pair rows are pairwise
distinct (one row per canonical key), every pair of the pair-bet map and the
canonicalization of every directional entry appears among them, and the rows
are sorted ascending by (sort-key of first member, sort-key of second
member); distinct string forms with equal sort keys may still repeat the
same unordered pair. -/
theorem pairCompare_rows_spec :
    (∀ umaren umatan excl,
      ((buildPairCore umaren umatan excl).map (fun r => (r.a, r.b))).Nodup) ∧
    (∀ umaren umatan excl p, p ∈ (umarenMapOf umaren excl).map Prod.fst →
      p ∈ (buildPairCore umaren umatan excl).map (fun r => (r.a, r.b))) ∧
    (∀ umaren umatan excl e, e ∈ umatanMapOf umatan excl →
      pairKey e.1.1 e.1.2 ∈ (buildPairCore umaren umatan excl).map (fun r => (r.a, r.b))) ∧
    (∀ umaren umatan excl,
      ((buildPairCore umaren umatan excl).map (fun r => (r.a, r.b))).Sorted pairLe) := by
  refine ⟨?_, ?_, ?_, ?_⟩
  · intro umaren umatan excl
    rw [buildPairCore_keys]
    exact ((List.perm_insertionSort pairLe _).nodup_iff).mpr (List.nodup_dedup _)
  · intro umaren umatan excl p hp
    rw [buildPairCore_keys, allPairsOf, (List.perm_insertionSort pairLe _).mem_iff,
      List.mem_dedup, List.mem_append]
    exact Or.inl hp
  · intro umaren umatan excl e he
    rw [buildPairCore_keys, allPairsOf, (List.perm_insertionSort pairLe _).mem_iff,
      List.mem_dedup, List.mem_append]
    exact Or.inr (List.mem_map_of_mem _ he)
  · intro umaren umatan excl
    rw [buildPairCore_keys]
    exact List.sorted_insertionSort pairLe _

/-- Witness for C9's amended clauses at a concrete input. -/
theorem pairCompare_rows_spec_witness :
    ((['1'], ['2']) ∈ (buildPairCore (some ⟨true, [⟨"1-2".data, "5.0".data⟩]⟩) none []).map
      (fun r => (r.a, r.b))) ∧
    (pairKey "2".data "1".data ∈
      (buildPairCore none (some ⟨true, [⟨"2-1".data, "8.0".data⟩]⟩) []).map
        (fun r => (r.a, r.b))) :=
  ⟨pairCompare_rows_spec.2.1 (some ⟨true, [⟨"1-2".data, "5.0".data⟩]⟩) none []
      (['1'], ['2']) (by decide),
   pairCompare_rows_spec.2.2.1 none (some ⟨true, [⟨"2-1".data, "8.0".data⟩]⟩) []
      (("2".data, "1".data), 8) (by decide)⟩

theorem mem_of_mem_filterCmpExcl {en : List ℕ} {rows : List CmpRow} {r : CmpRow}
    (h : r ∈ filterCmpExcl en rows) : r ∈ rows := by
  unfold filterCmpExcl at h
  split at h
  · exact h
  · exact List.mem_of_mem_filter h

theorem mem_of_mem_filterPairExcl {en : List ℕ} {rows : List PairRow} {r : PairRow}
    (h : r ∈ filterPairExcl en rows) : r ∈ rows := by
  unfold filterPairExcl at h
  split at h
  · exact h
  · exact List.mem_of_mem_filter h

/-- A dataset whose win table knows only horse 1 while the quinella table
quotes the pair 2-3. -/
def cexInp : PInput :=
  { tansho := some ⟨true, true, [⟨"1".data, "A".data, "2.0".data⟩]⟩
    fukusho := none
    umaren := some ⟨true, [⟨"2-3".data, "5.0".data⟩]⟩
    wide := none
    umatan := none
    sanrenpuku := none
    sanrentan := none
    excluded := [] }

/-- C3 counterexample: on `cexInp` the HorseMaster list is exactly ["1"],
yet the pair table's single row carries horse numbers 2 and 3 — numbers of
no horse in HorseMaster (horse 1 renders as 1, not 2 or 3). -/
theorem predict_pair_not_in_master_counterexample :
    (predictModel cexInp).toOption.map
      (fun o => (o.master.map (fun m => m.umaban), o.pairCmp.map (fun r => (r.aNum, r.bNum))))
      = some ([['1']], [(HNum.i 2, HNum.i 3)]) ∧
    renderHNum ['1'] = HNum.i 1 ∧
    HNum.i 1 ≠ HNum.i 2 ∧ HNum.i 1 ≠ HNum.i 3 := by
  exact ⟨by decide, by decide, by decide, by decide⟩

/-- C3 amended: every horse number appearing in the all-market, first-place
and flow tables is the number of a horse of the HorseMaster list (with its
name); the pair table's horse numbers are instead drawn from the
exclusion-filtered quinella/exacta pair list, and need not belong to
HorseMaster. -/
theorem predict_tables_reference_master (inp : PInput) (out : POutput)
    (h : predictModel inp = .ok out) :
    (∀ r ∈ out.allMarket, ∃ m ∈ out.master,
        r.umaban = pdToNumeric m.umaban ∧ r.umamei = m.umamei) ∧
    (∀ r ∈ out.firstPlace, ∃ m ∈ out.master,
        r.umaban = pdToNumeric m.umaban ∧ r.umamei = m.umamei) ∧
    (∀ r ∈ out.flowCmp, ∃ m ∈ out.master,
        r.umaban = pdToNumeric m.umaban ∧ r.umamei = m.umamei) ∧
    (∀ r ∈ out.pairCmp, ∃ p ∈ allPairsOf inp.umaren inp.umatan (exclSet inp),
        r.aNum = renderHNum p.1 ∧ r.bNum = renderHNum p.2) := by
  unfold predictModel at h
  rcases hbf : baseFrameOf inp with _ | bf <;> rw [hbf] at h
  · exact absurd h (by simp)
  have h2 : (match buildHorseMaster bf.hasNumName bf.rows (exclSet inp) (tanshoMapOf inp.tansho) with
      | Except.error e => (Except.error e : Except String POutput)
      | Except.ok master => Except.ok (mkTables inp master)) = Except.ok out := h
  rcases hbm : buildHorseMaster bf.hasNumName bf.rows (exclSet inp) (tanshoMapOf inp.tansho)
    with e | master <;> rw [hbm] at h2
  · exact absurd h2 (by simp)
  injection h2 with h'
  subst h'
  simp only [mkTables]
  refine ⟨?_, ?_, ?_, ?_⟩
  · intro r hr
    have hr' := mem_of_mem_filterCmpExcl hr
    simp only [mkCmpRows, List.mem_map] at hr'
    obtain ⟨m, hm, rfl⟩ := hr'
    exact ⟨m, hm, rfl, rfl⟩
  · intro r hr
    have hr' := mem_of_mem_filterCmpExcl hr
    simp only [mkCmpRows, List.mem_map] at hr'
    obtain ⟨m, hm, rfl⟩ := hr'
    exact ⟨m, hm, rfl, rfl⟩
  · intro r hr
    have hr' := mem_of_mem_filterCmpExcl hr
    simp only [mkCmpRows, List.mem_map] at hr'
    obtain ⟨m, hm, rfl⟩ := hr'
    exact ⟨m, hm, rfl, rfl⟩
  · intro r hr
    have hr' := mem_of_mem_filterPairExcl hr
    simp only [buildPairCompare, buildPairCore, List.map_map, List.mem_map] at hr'
    obtain ⟨p, hp, rfl⟩ := hr'
    exact ⟨p, hp, rfl, rfl⟩

/-- One-horse, win-table-only input for the C3 witness. -/
def wInp : PInput :=
  { tansho := some ⟨true, false, [⟨"1".data, "A".data, "".data⟩]⟩
    fukusho := none
    umaren := none
    wide := none
    umatan := none
    sanrenpuku := none
    sanrentan := none
    excluded := [] }

/-- The output of `predictModel wInp`, written out. -/
def wOut : POutput :=
  { master := [⟨['1'], ['A'], none⟩]
    allMarket := [⟨some 1, ['A'],
      [none, none, none, none, none, none, none, none, none, none], none⟩]
    firstPlace := [⟨some 1, ['A'], [none, none, none], none⟩]
    flowCmp := [⟨some 1, ['A'], [none, none], none⟩]
    pairCmp := [] }

/-- Witness for C3's amended claim at `wInp`. -/
theorem predict_tables_reference_master_witness :
    ∃ m ∈ wOut.master,
      (⟨some 1, ['A'], [none, none, none], none⟩ : CmpRow).umaban = pdToNumeric m.umaban ∧
      (⟨some 1, ['A'], [none, none, none], none⟩ : CmpRow).umamei = m.umamei :=
  (predict_tables_reference_master wInp wOut (by rfl)).2.1
    ⟨some 1, ['A'], [none, none, none], none⟩ (by decide)

theorem lstrip_cons_of_not_space {c : Char} (s : PyStr) (hc : isPySpace c = false) :
    lstrip (c :: s) = c :: s := by
  simp [lstrip, List.dropWhile_cons, hc]

theorem rstrip_cons_of_not_space {c : Char} (s : PyStr) (hc : isPySpace c = false) :
    rstrip (c :: s) = c :: rstrip s := by
  cases h : rstrip s with
  | nil => simp [rstrip, h, hc]
  | cons d t => simp [rstrip, h]

theorem pstrip_cons_of_not_space {c : Char} (s : PyStr) (hc : isPySpace c = false) :
    pstrip (c :: s) = c :: rstrip s := by
  rw [pstrip, lstrip_cons_of_not_space s hc, rstrip_cons_of_not_space s hc]

theorem rstrip_eq_nil_iff (s : PyStr) :
    rstrip s = [] ↔ ∀ c ∈ s, isPySpace c = true := by
  induction s with
  | nil => simp [rstrip]
  | cons d t ih =>
    cases h : rstrip t with
    | nil =>
      have ht : ∀ c ∈ t, isPySpace c = true := ih.mp h
      cases hd : isPySpace d with
      | false =>
        simp only [rstrip, h, hd]
        constructor
        · intro hx; exact absurd hx (by simp)
        · intro hall; exact absurd (hall d (List.mem_cons_self _ _)) (by simp [hd])
      | true =>
        simp only [rstrip, h, hd]
        constructor
        · intro _ c hc
          rcases List.mem_cons.mp hc with rfl | hct
          · exact hd
          · exact ht c hct
        · intro _; rfl
    | cons e u =>
      have ht : ¬ ∀ c ∈ t, isPySpace c = true := fun hall => by
        rw [ih.mpr hall] at h; exact List.noConfusion h
      simp only [rstrip, h]
      constructor
      · intro hx; exact absurd hx (by simp)
      · intro hall
        exact absurd (fun c hc => hall c (List.mem_cons_of_mem _ hc)) ht

theorem lstrip_eq_nil_iff (s : PyStr) :
    lstrip s = [] ↔ ∀ c ∈ s, isPySpace c = true := by
  induction s with
  | nil => simp [lstrip]
  | cons d t ih =>
    cases hd : isPySpace d with
    | false =>
      rw [lstrip_cons_of_not_space t hd]
      constructor
      · intro hx; exact absurd hx (by simp)
      · intro hall; exact absurd (hall d (List.mem_cons_self _ _)) (by simp [hd])
    | true =>
      have h1 : lstrip (d :: t) = lstrip t := by simp [lstrip, List.dropWhile_cons, hd]
      rw [h1, ih]
      constructor
      · intro hall c hc
        rcases List.mem_cons.mp hc with rfl | hct
        · exact hd
        · exact hall c hct
      · intro hall c hc; exact hall c (List.mem_cons_of_mem _ hc)

theorem mem_of_mem_lstrip {c : Char} {s : PyStr} (h : c ∈ lstrip s) : c ∈ s :=
  (List.dropWhile_sublist _).subset h

theorem mem_of_mem_rstrip {c : Char} {s : PyStr} (h : c ∈ rstrip s) : c ∈ s := by
  induction s with
  | nil => exact absurd h (by simp [rstrip])
  | cons d t ih =>
    cases ht : rstrip t with
    | nil =>
      cases hd : isPySpace d with
      | false =>
        rw [rstrip_cons_of_not_space t hd, ht] at h
        rcases List.mem_cons.mp h with rfl | h2
        · exact List.mem_cons_self _ _
        · exact absurd h2 (by simp)
      | true =>
        simp only [rstrip, ht, hd] at h
        exact absurd h (by simp)
    | cons e u =>
      simp only [rstrip, ht] at h
      rcases List.mem_cons.mp h with rfl | h2
      · exact List.mem_cons_self _ _
      · exact List.mem_cons_of_mem _ (ih (ht ▸ h2))

theorem mem_of_mem_pstrip {c : Char} {s : PyStr} (h : c ∈ pstrip s) : c ∈ s :=
  mem_of_mem_lstrip (mem_of_mem_rstrip h)

theorem mem_lstrip_of_not_space {c : Char} {s : PyStr} (h : c ∈ s)
    (hc : isPySpace c = false) : c ∈ lstrip s := by
  induction s with
  | nil => exact absurd h (by simp)
  | cons d t ih =>
    cases hd : isPySpace d with
    | false => rw [lstrip_cons_of_not_space t hd]; exact h
    | true =>
      have h1 : lstrip (d :: t) = lstrip t := by simp [lstrip, List.dropWhile_cons, hd]
      rw [h1]
      rcases List.mem_cons.mp h with rfl | h2
      · rw [hd] at hc; exact absurd hc (by simp)
      · exact ih h2

theorem mem_rstrip_of_not_space {c : Char} {s : PyStr} (h : c ∈ s)
    (hc : isPySpace c = false) : c ∈ rstrip s := by
  induction s with
  | nil => exact absurd h (by simp)
  | cons d t ih =>
    rcases List.mem_cons.mp h with rfl | h2
    · cases ht : rstrip t with
      | nil => simp [rstrip, ht, hc]
      | cons e u => simp [rstrip, ht]
    · have hm := ih h2
      cases ht : rstrip t with
      | nil => rw [ht] at hm; exact absurd hm (by simp)
      | cons e u =>
        simp only [rstrip, ht]
        exact List.mem_cons_of_mem _ (ht ▸ hm)

theorem mem_pstrip_of_not_space {c : Char} {s : PyStr} (h : c ∈ s)
    (hc : isPySpace c = false) : c ∈ pstrip s :=
  mem_rstrip_of_not_space (mem_lstrip_of_not_space h hc) hc

theorem lstrip_idem (s : PyStr) : lstrip (lstrip s) = lstrip s := by
  induction s with
  | nil => rfl
  | cons d t ih =>
    cases hd : isPySpace d with
    | false => rw [lstrip_cons_of_not_space t hd, lstrip_cons_of_not_space t hd]
    | true =>
      have h1 : lstrip (d :: t) = lstrip t := by simp [lstrip, List.dropWhile_cons, hd]
      rw [h1, ih]

theorem rstrip_idem (s : PyStr) : rstrip (rstrip s) = rstrip s := by
  induction s with
  | nil => rfl
  | cons d t ih =>
    cases ht : rstrip t with
    | nil =>
      cases hd : isPySpace d with
      | false => simp [rstrip, ht, hd]
      | true => simp [rstrip, ht, hd]
    | cons e u =>
      have h1 : rstrip (d :: t) = d :: rstrip t := by simp [rstrip, ht]
      rw [h1]
      have h2 : rstrip (rstrip t) = rstrip t := ih
      cases hru : rstrip (rstrip t) with
      | nil => rw [h2, ht] at hru; exact absurd hru (by simp)
      | cons f w => simp only [rstrip, hru]; rw [← hru, h2]

theorem lstrip_rstrip_comm (s : PyStr) : lstrip (rstrip s) = rstrip (lstrip s) := by
  induction s with
  | nil => rfl
  | cons d t ih =>
    cases hd : isPySpace d with
    | false =>
      rw [rstrip_cons_of_not_space t hd, lstrip_cons_of_not_space (rstrip t) hd,
        lstrip_cons_of_not_space t hd, rstrip_cons_of_not_space t hd]
    | true =>
      have h2 : lstrip (d :: t) = lstrip t := by simp [lstrip, List.dropWhile_cons, hd]
      cases ht : rstrip t with
      | nil =>
        have h1 : rstrip (d :: t) = [] := by simp [rstrip, ht, hd]
        rw [h1, h2, ← ih, ht]
      | cons e u =>
        have h1 : rstrip (d :: t) = d :: rstrip t := by simp [rstrip, ht]
        have h3 : lstrip (d :: rstrip t) = lstrip (rstrip t) := by
          simp [lstrip, List.dropWhile_cons, hd]
        rw [h1, h2, h3, ih]

theorem pstrip_idem (s : PyStr) : pstrip (pstrip s) = pstrip s := by
  show rstrip (lstrip (rstrip (lstrip s))) = rstrip (lstrip s)
  rw [lstrip_rstrip_comm (lstrip s), lstrip_idem, rstrip_idem]

theorem pstrip_rstrip (s : PyStr) : pstrip (rstrip s) = pstrip s := by
  show rstrip (lstrip (rstrip s)) = pstrip s
  rw [lstrip_rstrip_comm s, rstrip_idem]
  rfl

theorem pstrip_eq_nil_iff (s : PyStr) :
    pstrip s = [] ↔ ∀ c ∈ s, isPySpace c = true := by
  rw [pstrip, rstrip_eq_nil_iff]
  constructor
  · intro hall c hc
    cases hsp : isPySpace c with
    | false => exact absurd (hall c (mem_lstrip_of_not_space hc hsp)) (by simp [hsp])
    | true => rfl
  · intro hall c hc
    exact hall c (mem_of_mem_lstrip hc)

theorem splitOnChar_ne_nil (sep : Char) (s : PyStr) : splitOnChar sep s ≠ [] := by
  induction s with
  | nil => simp [splitOnChar]
  | cons c t ih =>
    by_cases hc : c = sep
    · simp [splitOnChar, hc]
    · cases h : splitOnChar sep t with
      | nil => simp [splitOnChar, hc, h]
      | cons p ps => simp [splitOnChar, hc, h]

theorem splitOnChar_cons_self (sep : Char) (s : PyStr) :
    splitOnChar sep (sep :: s) = [] :: splitOnChar sep s := by
  simp [splitOnChar]

theorem not_mem_of_mem_splitOnChar {sep : Char} {s : PyStr} :
    ∀ p ∈ splitOnChar sep s, sep ∉ p := by
  induction s with
  | nil =>
    intro p hp
    rw [show splitOnChar sep [] = [[]] from rfl, List.mem_singleton] at hp
    subst hp
    simp
  | cons c t ih =>
    intro p hp
    by_cases hc : c = sep
    · subst hc
      rw [splitOnChar_cons_self] at hp
      rcases List.mem_cons.mp hp with rfl | hp2
      · simp
      · exact ih p hp2
    · cases h : splitOnChar sep t with
      | nil => exact absurd h (splitOnChar_ne_nil sep t)
      | cons q qs =>
        have hs : splitOnChar sep (c :: t) = (c :: q) :: qs := by
          simp [splitOnChar, hc, h]
        rw [hs] at hp
        rcases List.mem_cons.mp hp with rfl | hp2
        · intro hmem
          rcases List.mem_cons.mp hmem with heq | hmem2
          · exact hc heq.symm
          · exact ih q (h ▸ List.mem_cons_self _ _) hmem2
        · exact ih p (h ▸ List.mem_cons_of_mem _ hp2)

theorem splitOnChar_of_not_mem {sep : Char} {s : PyStr} (h : sep ∉ s) :
    splitOnChar sep s = [s] := by
  induction s with
  | nil => rfl
  | cons c t ih =>
    have hc : ¬ c = sep := fun he => h (he ▸ List.mem_cons_self _ _)
    have ht : sep ∉ t := fun hm => h (List.mem_cons_of_mem _ hm)
    simp [splitOnChar, hc, ih ht]

theorem premove_of_not_mem {ch : Char} {s : PyStr} (h : ch ∉ s) :
    premove ch s = s := by
  rw [premove, List.filter_eq_self]
  intro a ha
  simp only [decide_eq_true_eq, ne_eq]
  rintro rfl
  exact h ha

theorem mem_premove {c ch : Char} {s : PyStr} (h : c ∈ s) (hne : c ≠ ch) :
    c ∈ premove ch s :=
  List.mem_filter.mpr ⟨h, by simp [hne]⟩

theorem preplace_of_not_mem {a : Char} (b : Char) {s : PyStr} (h : a ∉ s) :
    preplace a b s = s := by
  rw [preplace]
  conv_rhs => rw [← List.map_id s]
  apply List.map_congr_left
  intro c hc
  have : ¬ c = a := fun he => h (he ▸ hc)
  simp [this]

theorem mem_preplace {c a : Char} (b : Char) {s : PyStr} (h : c ∈ s) (hne : c ≠ a) :
    c ∈ preplace a b s :=
  List.mem_map.mpr ⟨c, h, by simp [hne]⟩

theorem pyFloatCore_nonneg {t : PyStr} {v : ℚ} (h : pyFloatCore t = some v) :
    0 ≤ v := by
  unfold pyFloatCore at h
  split at h
  · split_ifs at h
    injection h with h'
    subst h'
    exact Nat.cast_nonneg _
  · split_ifs at h
    injection h with h'
    subst h'
    rw [qadd_eq, qdiv_eq]
    exact add_nonneg (Nat.cast_nonneg _)
      (div_nonneg (Nat.cast_nonneg _) (Nat.cast_nonneg _))
  · exact absurd h (by simp)

theorem pstrip_ne_nil_of_pyFloat {s : PyStr} {v : ℚ} (h : pyFloat s = some v) :
    pstrip s ≠ [] := by
  intro hnil
  unfold pyFloat at h
  rw [hnil] at h
  exact absurd h (by simp)

theorem pyFloat_pstrip (s : PyStr) : pyFloat (pstrip s) = pyFloat s := by
  unfold pyFloat
  rw [pstrip_idem]

theorem pyFloat_nonneg_of_no_dash {s : PyStr} {v : ℚ} (hd : '-' ∉ s)
    (h : pyFloat s = some v) : 0 ≤ v := by
  unfold pyFloat at h
  cases hp : pstrip s with
  | nil => rw [hp] at h; exact absurd h (by simp)
  | cons c rest =>
    rw [hp] at h
    have h2 : (if c = '+' then pyFloatCore rest
        else if c = '-' then (pyFloatCore rest).map (fun q => -q)
        else pyFloatCore (c :: rest)) = some v := h
    by_cases hplus : c = '+'
    · rw [if_pos hplus] at h2
      exact pyFloatCore_nonneg h2
    · rw [if_neg hplus] at h2
      have hcm : c ∈ pstrip s := hp ▸ List.mem_cons_self _ _
      have hcd : ¬ c = '-' := fun he => hd (he ▸ mem_of_mem_pstrip hcm)
      rw [if_neg hcd] at h2
      exact pyFloatCore_nonneg h2

theorem parseOdds_dash_prefix_aux {x : PyStr} {v : ℚ}
    (hdash : '-' ∉ x) (hcomma : ',' ∉ x) (hwave : '〜' ∉ x)
    (hf : pyFloat x = some v) :
    parseOddsValue ('-' :: x) = some v := by
  have hnd : isPySpace '-' = false := by decide
  have htext : pstrip ('-' :: x) = '-' :: rstrip x := pstrip_cons_of_not_space x hnd
  have hpsx : pstrip x ≠ [] := pstrip_ne_nil_of_pyFloat hf
  have hrx : rstrip x ≠ [] := by
    intro hn
    exact hpsx ((pstrip_eq_nil_iff x).mpr ((rstrip_eq_nil_iff x).mp hn))
  have hdx : '-' ∉ rstrip x := fun hm => hdash (mem_of_mem_rstrip hm)
  have hne2 : ¬ ('-' :: rstrip x = ['-']) := by
    intro he
    injection he with _ h2
    exact hrx h2
  have hne3 : ¬ ('-' :: rstrip x = ['-', '-']) := by
    intro he
    injection he with _ h2
    exact hdx (h2 ▸ List.mem_cons_self _ _)
  have hprem : premove ',' ('-' :: rstrip x) = '-' :: rstrip x := by
    apply premove_of_not_mem
    intro hm
    rcases List.mem_cons.mp hm with he | hm2
    · exact absurd he (by decide)
    · exact hcomma (mem_of_mem_rstrip hm2)
  have hprep : preplace '〜' '-' ('-' :: rstrip x) = '-' :: rstrip x := by
    apply preplace_of_not_mem
    intro hm
    rcases List.mem_cons.mp hm with he | hm2
    · exact absurd he (by decide)
    · exact hwave (mem_of_mem_rstrip hm2)
  have hsplit : splitOnChar '-' ('-' :: rstrip x) = [[], rstrip x] := by
    rw [splitOnChar_cons_self, splitOnChar_of_not_mem hdx]
  have hparts : (([[], rstrip x].map pstrip).filter (· ≠ [])) = [pstrip x] := by
    show ([pstrip [], pstrip (rstrip x)].filter (· ≠ [])) = [pstrip x]
    rw [pstrip_rstrip]
    have hpe : pstrip ([] : PyStr) = [] := rfl
    simp [List.filter, hpsx, hpe]
  have hvals : ([pstrip x].filterMap pyFloat) = [v] := by
    simp [List.filterMap_cons, pyFloat_pstrip, hf]
  simp only [parseOddsValue]
  rw [htext, if_neg (by push_neg; exact ⟨by simp, hne2, hne3⟩), hprem, hprep,
    if_pos (List.mem_cons_self '-' (rstrip x)), hsplit, hparts, hvals,
    if_neg (by simp)]
  congr 1
  rw [qdiv_eq, qsum]
  simp [qadd_eq]

theorem parseOdds_nonneg_aux {s : PyStr} {v : ℚ}
    (hdash : '-' ∈ s) (h : parseOddsValue s = some v) : 0 ≤ v := by
  have hnd : isPySpace '-' = false := by decide
  have h0 : '-' ∈ pstrip s := mem_pstrip_of_not_space hdash hnd
  have h1 : '-' ∈ premove ',' (pstrip s) := mem_premove h0 (by decide)
  have h2 : '-' ∈ preplace '〜' '-' (premove ',' (pstrip s)) := mem_preplace '-' h1 (by decide)
  simp only [parseOddsValue] at h
  split_ifs at h with hc1 hc2
  · injection h with h'
    subst h'
    rw [qdiv_eq, qsum_eq]
    apply div_nonneg
    · apply List.sum_nonneg
      intro u hu
      rw [List.mem_filterMap] at hu
      obtain ⟨part, hpart, hpf⟩ := hu
      rw [List.mem_filter] at hpart
      obtain ⟨hpm, _⟩ := hpart
      rw [List.mem_map] at hpm
      obtain ⟨seg, hseg, rfl⟩ := hpm
      have hnd2 : '-' ∉ seg := not_mem_of_mem_splitOnChar seg hseg
      have hnd3 : '-' ∉ pstrip seg := fun hm => hnd2 (mem_of_mem_pstrip hm)
      exact pyFloat_nonneg_of_no_dash hnd3 hpf
    · exact Nat.cast_nonneg _

/-- C10: for every string "-x" whose tail parses as a non-negative float,
the odds parser returns that value itself — the leading minus is treated as
a range separator whose empty left segment is dropped — and the parser never
returns a negative number on any input containing an ASCII hyphen. -/
theorem parseOdds_dash_behavior :
    (∀ (x : PyStr) (v : ℚ), '-' ∉ x → ',' ∉ x → '〜' ∉ x →
        pyFloat x = some v → 0 ≤ v → parseOddsValue ('-' :: x) = some v) ∧
    (∀ (s : PyStr) (v : ℚ), '-' ∈ s → parseOddsValue s = some v → 0 ≤ v) :=
  ⟨fun _x _v hd hc hw hf _hv => parseOdds_dash_prefix_aux hd hc hw hf,
   fun _s _v hd h => parseOdds_nonneg_aux hd h⟩

/-- Witness for C10 at "-5": the parser returns 5, a non-negative value. -/
theorem parseOdds_dash_behavior_witness :
    parseOddsValue ('-' :: "5".data) = some 5 ∧ (0 : ℚ) ≤ 5 :=
  ⟨parseOdds_dash_behavior.1 "5".data 5 (by decide) (by decide) (by decide)
      (by decide) (by norm_num),
   parseOdds_dash_behavior.2 "-5".data 5 (by decide) (by decide)⟩

end NrScope
